import Mathlib

/-!
Shallow embedding of the core logic modules of the modern-json-react
repository: the path engine (getByPath / setByPath over JSON values),
the JSON-Schema validator (validateSchema), the formatter error paths
(formatJson / minifyJson / sortJsonKeys), the parser front door
(parseJson / isValidJson), the tree builder (buildTree), the undo/redo
history manager (useUndoRedo's set / undo / redo / reset), and the
text-search scan loop (useSearch's per-line regex scan).

JavaScript runtime builtins that are not part of the repository
(JSON.parse, JSON.stringify, RegExp, localeCompare) are modelled as
explicit function parameters; everything else is translated directly
from the source files.
-/

namespace MJR

/-- A JSON value: null, boolean, number, string, array, or object.
Objects are ordered key/value lists, mirroring JS own-property
insertion order; numbers are modelled as rationals (every JS double
that appears in a JSON document has an exact rational value). -/
inductive Json where
  | null : Json
  | bool (b : Bool) : Json
  | num (q : Rat) : Json
  | str (s : String) : Json
  | arr (xs : List Json) : Json
  | obj (fields : List (String × Json)) : Json
  deriving Repr

mutual

/-- Structural equality of JSON values.  This is what both
`deepEqual` (via primitive `===` plus `JSON.stringify` comparison) and
the `uniqueItems` stringify-set test decide on pure JSON data: key
order is significant, numbers compare by value. -/
def Json.beq : Json → Json → Bool
  | .null, .null => true
  | .bool a, .bool b => a == b
  | .num a, .num b => a == b
  | .str a, .str b => a == b
  | .arr xs, .arr ys => Json.beqList xs ys
  | .obj fs, .obj gs => Json.beqFields fs gs
  | _, _ => false

/-- Elementwise `Json.beq` on lists. -/
def Json.beqList : List Json → List Json → Bool
  | [], [] => true
  | x :: xs, y :: ys => x.beq y && Json.beqList xs ys
  | _, _ => false

/-- Elementwise `Json.beq` on key/value lists. -/
def Json.beqFields : List (String × Json) → List (String × Json) → Bool
  | [], [] => true
  | (k, v) :: fs, (l, w) :: gs => k == l && v.beq w && Json.beqFields fs gs
  | _, _ => false

end

/-! ## Path engine (core/path.ts) -/

/-- JS whitespace as accepted by `parseInt` (StrWhiteSpace: whitespace
plus line terminators). -/
def jsWhitespaceChar (c : Char) : Bool :=
  c = ' ' || c = '\t' || c = '\n' || c = '\r' || c = '\x0b' || c = '\x0c' ||
  c = '\u00A0' || c = '\uFEFF' || c = '\u1680' || c = '\u2028' ||
  c = '\u2029' || c = '\u202F' || c = '\u205F' || c = '\u3000' ||
  ('\u2000' ≤ c && c ≤ '\u200A')

/-- Numeric value of a digit string. -/
def digitsVal (ds : List Char) : Nat :=
  ds.foldl (fun a c => a * 10 + (c.toNat - '0'.toNat)) 0

/-- The `parseInt(s, 10)`: skip leading whitespace, optional sign, then the
longest digit prefix; `none` corresponds to `NaN` (no digits found). -/
def jsParseInt (s : String) : Option Int :=
  let cs := s.data.dropWhile jsWhitespaceChar
  let signed : Int × List Char :=
    match cs with
    | '-' :: r => (-1, r)
    | '+' :: r => (1, r)
    | r => (1, r)
  let ds := signed.2.takeWhile Char.isDigit
  if ds.isEmpty then none else some (signed.1 * (digitsVal ds : Int))

/-- The `^\$\.?` strip: a leading `$`, optionally followed by `.`,
is removed. -/
def stripDollar (l : List Char) : List Char :=
  match l with
  | '$' :: '.' :: rest => rest
  | '$' :: rest => rest
  | _ => l

/-- Dropping a prefix never lengthens a list (termination helper for
the scanning replaces below). -/
theorem lenDropWhileLe {α : Type} (p : α → Bool) (l : List α) :
    (l.dropWhile p).length ≤ l.length := by
  induction l with
  | nil => simp
  | cons c rest ih =>
    simp only [List.dropWhile]
    by_cases h : p c
    · simp only [h, List.length_cons]
      omega
    · simp [h]

/-- The global replace `\[(\d+)\]` → `.$1`: each non-overlapping
`[digits]` (scanned left to right) becomes `.digits`. -/
def replBracketNum (l : List Char) : List Char :=
  match l with
  | [] => []
  | c :: rest =>
    if c = '[' then
      match hm : rest.dropWhile Char.isDigit with
      | ']' :: r =>
        if (rest.takeWhile Char.isDigit).isEmpty then c :: replBracketNum rest
        else '.' :: rest.takeWhile Char.isDigit ++ replBracketNum r
      | _ => c :: replBracketNum rest
    else c :: replBracketNum rest
termination_by l.length
decreasing_by
  · simp only [List.length_cons]; omega
  · have h1 : (']' :: r).length ≤ rest.length := hm ▸ lenDropWhileLe Char.isDigit rest
    simp only [List.length_cons] at h1 ⊢
    omega
  · simp only [List.length_cons]; omega
  · simp only [List.length_cons]; omega

/-- The global replaces `\["([^"]+)"\]` → `.$1` and `\['([^']+)'\]` →
`.$1`, parameterized by the quote character: each non-overlapping
`[q chars q]` (with a nonempty run of non-quote chars) becomes
`.chars`. -/
def replBracketQuoted (q : Char) (l : List Char) : List Char :=
  match l with
  | [] => []
  | [c] => [c]
  | c :: c2 :: rest2 =>
    if c = '[' then
      if c2 = q then
        match hm : rest2.dropWhile (fun a => a != q) with
        | _ :: ']' :: r =>
          if (rest2.takeWhile (fun a => a != q)).isEmpty then
            c :: replBracketQuoted q (c2 :: rest2)
          else '.' :: rest2.takeWhile (fun a => a != q) ++ replBracketQuoted q r
        | _ => c :: replBracketQuoted q (c2 :: rest2)
      else c :: replBracketQuoted q (c2 :: rest2)
    else c :: replBracketQuoted q (c2 :: rest2)
termination_by l.length
decreasing_by
  · simp only [List.length_cons]; omega
  · have h1 : (rest2.dropWhile (fun a => a != q)).length ≤ rest2.length :=
      lenDropWhileLe (fun a => a != q) rest2
    rw [hm] at h1
    simp only [List.length_cons] at h1 ⊢
    omega
  · simp only [List.length_cons]; omega
  · simp only [List.length_cons]; omega
  · simp only [List.length_cons]; omega

/-- Split a character list on `.` (the `split('.')` step), keeping
empty segments (they are filtered afterwards). -/
def splitDot (l : List Char) : List (List Char) :=
  match l with
  | [] => [[]]
  | c :: rest =>
    let r := splitDot rest
    if c = '.' then [] :: r
    else
      match r with
      | s :: ss => (c :: s) :: ss
      | [] => [[c]]

/-- The `parsePath`: strip the leading `$`/`$.`, rewrite the three bracket
forms to dot form, split on `.`, and drop empty segments. -/
def parsePath (path : String) : List String :=
  let l1 := stripDollar path.data
  let l2 := replBracketNum l1
  let l3 := replBracketQuoted '"' l2
  let l4 := replBracketQuoted '\'' l3
  ((splitDot l4).map String.mk).filter (fun s => s != "")

/-- First binding of a key in an ordered field list (JS property
lookup `obj[segment]`; `none` is `undefined`). -/
def lookupField : List (String × Json) → String → Option Json
  | [], _ => none
  | (k, v) :: fs, s => if k = s then some v else lookupField fs s

/-- The segment-walking loop of `getByPath`.  The current value is an
`Option` because JS traversal can reach `undefined`; reaching `null`
or `undefined` with segments left, a `NaN` index, an out-of-range
index, or a primitive container all yield `undefined`. -/
def getLoop : Option Json → List String → Option Json
  | cur, [] => cur
  | cur, seg :: rest =>
    match cur with
    | none => none
    | some .null => none
    | some (.arr xs) =>
      match jsParseInt seg with
      | none => none
      | some i => getLoop (if 0 ≤ i then xs[i.toNat]? else none) rest
    | some (.obj fs) => getLoop (lookupField fs seg) rest
    | some _ => none

/-- The `getByPath(obj, path)`: root for `$` or the empty path, else walk
the parsed segments. -/
def getByPath (obj : Json) (path : String) : Option Json :=
  if path = "$" || path = "" then some obj
  else getLoop (some obj) (parsePath path)

/-- The object-spread update `{ ...obj, [seg]: w }`: an existing key
keeps its position and gets the new value; a new key is appended. -/
def setField (fs : List (String × Json)) (s : String) (w : Json) :
    List (String × Json) :=
  if fs.any (fun kv => kv.1 == s) then
    fs.map (fun kv => if kv.1 = s then (kv.1, w) else kv)
  else fs ++ [(s, w)]

/-- The `setBySegments`: copy-on-write descent.  Results are `Option`
because some JS outcomes are not JSON values (a `NaN` or negative
array index creates a non-index property on the array; writing past
the end leaves holes); `none` marks those.  Writing at exactly the
array's length is a clean append.  A primitive/null/undefined current
value synthesizes a fresh container (`[]` when the next segment is
all digits, else `{}`). -/
def setLoop : Option Json → List String → Json → Option Json
  | _, [], value => some value
  | cur, seg :: rest, value =>
    match cur with
    | some (.arr xs) =>
      match jsParseInt seg with
      | none => none
      | some i =>
        if 0 ≤ i then
          if i.toNat < xs.length then
            (setLoop xs[i.toNat]? rest value).map (fun w => .arr (xs.set i.toNat w))
          else if i.toNat = xs.length then
            (setLoop none rest value).map (fun w => .arr (xs ++ [w]))
          else none
        else none
    | some (.obj fs) =>
      (setLoop (lookupField fs seg) rest value).map (fun w => .obj (setField fs seg w))
    | _ =>
      let isArrayIndex : Bool :=
        match rest with
        | next :: _ => !next.data.isEmpty && next.data.all Char.isDigit
        | [] => false
      let container : Json := if isArrayIndex then .arr [] else .obj []
      (setLoop (some container) rest value).map (fun w => .obj [(seg, w)])

/-- The `setByPath(obj, path, value)`: replace the root for `$`/empty,
else walk the parsed segments with `setBySegments`. -/
def setByPath (obj : Json) (path : String) (value : Json) : Option Json :=
  if path = "$" || path = "" then some value
  else setLoop (some obj) (parsePath path) value

/-! ## History manager (hooks/useUndoRedo.ts)

The hook's mutable refs are a state record `(entries, position,
lastUpdateTime)`; `Date.now()` enters as an explicit `now` argument. -/

/-- The state held by `useUndoRedo`'s refs. -/
structure History (α : Type) where
  entries : List α
  position : Nat
  lastUpdateTime : Int
  deriving Repr

namespace History

/-- The initial hook state: `historyRef = [initialValue]`,
`positionRef = 0`, `lastUpdateTime = 0`. -/
def init {α : Type} (v : α) : History α :=
  ⟨[v], 0, 0⟩

/-- The `set` callback.  Grouping replaces the entry at `position`
(when the previous update was under `groupingInterval` ms ago and
`position > 0`); otherwise the new value is appended after `position`,
discarding the redo tail.  The stack is then trimmed from the front to
`maxHistory` entries, shifting `position` down and flooring it at 0. -/
def set {α : Type} (maxHistory : Nat) (groupingInterval : Int)
    (h : History α) (now : Int) (value : α) : History α :=
  let shouldGroup : Bool := now - h.lastUpdateTime < groupingInterval
  let pos := h.position
  let step : List α × Int :=
    if shouldGroup && (0 < pos : Bool) then
      (h.entries.take pos ++ [value], (pos : Int))
    else
      (h.entries.take (pos + 1) ++ [value], (pos : Int) + 1)
  let trimmed : List α × Int :=
    if maxHistory < step.1.length then
      let trimCount := step.1.length - maxHistory
      (step.1.drop trimCount, step.2 - (trimCount : Int))
    else step
  { entries := trimmed.1
    position := (max 0 trimmed.2).toNat
    lastUpdateTime := now }

/-- The `undo` callback: step `position` back if it is positive. -/
def undo {α : Type} (h : History α) : History α :=
  if 0 < h.position then { h with position := h.position - 1 } else h

/-- The `redo` callback: step `position` forward if it is below
`entries.length - 1`. -/
def redo {α : Type} (h : History α) : History α :=
  if (h.position : Int) < (h.entries.length : Int) - 1 then
    { h with position := h.position + 1 }
  else h

/-- The `reset` callback: a fresh single-entry stack with the grouping
timer cleared. -/
def reset {α : Type} (_h : History α) (v : α) : History α :=
  ⟨[v], 0, 0⟩

/-- The `canUndo: positionRef.current > 0`. -/
def canUndo {α : Type} (h : History α) : Bool :=
  0 < h.position

/-- The `canRedo: positionRef.current < historyRef.current.length - 1`. -/
def canRedo {α : Type} (h : History α) : Bool :=
  (h.position : Int) < (h.entries.length : Int) - 1

/-- The `historyLength: historyRef.current.length`. -/
def historyLength {α : Type} (h : History α) : Nat :=
  h.entries.length

/-- The `current = historyRef.current[positionRef.current]` (`none` is JS
`undefined`, reachable only if the position invariant breaks). -/
def current {α : Type} (h : History α) : Option α :=
  h.entries[h.position]?

/-- States reachable through the hook's public operations from some
initial value, for a fixed `maxHistory` / `groupingInterval`. -/
inductive Reachable (mh : Nat) (gi : Int) {α : Type} : History α → Prop
  | init (v : α) : Reachable mh gi (History.init v)
  | set {h : History α} (now : Int) (v : α) :
      Reachable mh gi h → Reachable mh gi (History.set mh gi h now v)
  | undo {h : History α} :
      Reachable mh gi h → Reachable mh gi (History.undo h)
  | redo {h : History α} :
      Reachable mh gi h → Reachable mh gi (History.redo h)
  | reset {h : History α} (v : α) :
      Reachable mh gi h → Reachable mh gi (History.reset h v)

end History

/-! ## Validator (core/validator.ts)

`RegExp.test` and `JSON.stringify` are JS builtins, passed in as
function parameters `rt` and `jstr`; the schemas used by the claims
never reach them. -/

/-- The `type` field of a schema: a single type name or a union
array. -/
inductive SchemaType where
  | single (s : String)
  | multi (l : List String)
  deriving Repr, DecidableEq

/-- The JSON-Schema subset read by `validateSchema`, as optional
fields.  `items` covers only the single-schema form (the code ignores
the tuple form via `!Array.isArray(schema.items)`); numeric
constraints are JS numbers, modelled as rationals. -/
inductive JSONSchema where
  | mk
    (stype : Option SchemaType)
    (enum : Option (List Json))
    (minLength : Option Rat)
    (maxLength : Option Rat)
    (pattern : Option String)
    (minimum : Option Rat)
    (maximum : Option Rat)
    (exclusiveMinimum : Option Rat)
    (exclusiveMaximum : Option Rat)
    (multipleOf : Option Rat)
    (minItems : Option Rat)
    (maxItems : Option Rat)
    (uniqueItems : Option Bool)
    (items : Option JSONSchema)
    (required : Option (List String))
    (minProperties : Option Rat)
    (maxProperties : Option Rat)
    (properties : Option (List (String × JSONSchema)))
    (additionalProperties : Option Bool)

/-- The `schema.type`. -/
def JSONSchema.stype : JSONSchema → Option SchemaType
  | .mk t _ _ _ _ _ _ _ _ _ _ _ _ _ _ _ _ _ _ => t

/-- The `schema.enum`. -/
def JSONSchema.enum : JSONSchema → Option (List Json)
  | .mk _ e _ _ _ _ _ _ _ _ _ _ _ _ _ _ _ _ _ => e

/-- The `schema.minLength`. -/
def JSONSchema.minLength : JSONSchema → Option Rat
  | .mk _ _ v _ _ _ _ _ _ _ _ _ _ _ _ _ _ _ _ => v

/-- The `schema.maxLength`. -/
def JSONSchema.maxLength : JSONSchema → Option Rat
  | .mk _ _ _ v _ _ _ _ _ _ _ _ _ _ _ _ _ _ _ => v

/-- The `schema.pattern`. -/
def JSONSchema.pattern : JSONSchema → Option String
  | .mk _ _ _ _ v _ _ _ _ _ _ _ _ _ _ _ _ _ _ => v

/-- The `schema.minimum`. -/
def JSONSchema.minimum : JSONSchema → Option Rat
  | .mk _ _ _ _ _ v _ _ _ _ _ _ _ _ _ _ _ _ _ => v

/-- The `schema.maximum`. -/
def JSONSchema.maximum : JSONSchema → Option Rat
  | .mk _ _ _ _ _ _ v _ _ _ _ _ _ _ _ _ _ _ _ => v

/-- The `schema.exclusiveMinimum`. -/
def JSONSchema.exclusiveMinimum : JSONSchema → Option Rat
  | .mk _ _ _ _ _ _ _ v _ _ _ _ _ _ _ _ _ _ _ => v

/-- The `schema.exclusiveMaximum`. -/
def JSONSchema.exclusiveMaximum : JSONSchema → Option Rat
  | .mk _ _ _ _ _ _ _ _ v _ _ _ _ _ _ _ _ _ _ => v

/-- The `schema.multipleOf`. -/
def JSONSchema.multipleOf : JSONSchema → Option Rat
  | .mk _ _ _ _ _ _ _ _ _ v _ _ _ _ _ _ _ _ _ => v

/-- The `schema.minItems`. -/
def JSONSchema.minItems : JSONSchema → Option Rat
  | .mk _ _ _ _ _ _ _ _ _ _ v _ _ _ _ _ _ _ _ => v

/-- The `schema.maxItems`. -/
def JSONSchema.maxItems : JSONSchema → Option Rat
  | .mk _ _ _ _ _ _ _ _ _ _ _ v _ _ _ _ _ _ _ => v

/-- The `schema.uniqueItems`. -/
def JSONSchema.uniqueItems : JSONSchema → Option Bool
  | .mk _ _ _ _ _ _ _ _ _ _ _ _ v _ _ _ _ _ _ => v

/-- The `schema.items`. -/
def JSONSchema.items : JSONSchema → Option JSONSchema
  | .mk _ _ _ _ _ _ _ _ _ _ _ _ _ v _ _ _ _ _ => v

/-- The `schema.required`. -/
def JSONSchema.required : JSONSchema → Option (List String)
  | .mk _ _ _ _ _ _ _ _ _ _ _ _ _ _ v _ _ _ _ => v

/-- The `schema.minProperties`. -/
def JSONSchema.minProperties : JSONSchema → Option Rat
  | .mk _ _ _ _ _ _ _ _ _ _ _ _ _ _ _ v _ _ _ => v

/-- The `schema.maxProperties`. -/
def JSONSchema.maxProperties : JSONSchema → Option Rat
  | .mk _ _ _ _ _ _ _ _ _ _ _ _ _ _ _ _ v _ _ => v

/-- The `schema.properties`. -/
def JSONSchema.properties : JSONSchema → Option (List (String × JSONSchema))
  | .mk _ _ _ _ _ _ _ _ _ _ _ _ _ _ _ _ _ v _ => v

/-- The `schema.additionalProperties`. -/
def JSONSchema.additionalProperties : JSONSchema → Option Bool
  | .mk _ _ _ _ _ _ _ _ _ _ _ _ _ _ _ _ _ _ v => v

/-- The all-absent schema `{}`; concrete schemas are built from it by
overriding fields. -/
def emptySchema : JSONSchema :=
  .mk none none none none none none none none none none none none none
    none none none none none none

/-- The violated rule recorded in an error's `schemaRule` slot. -/
inductive RuleVal where
  | ofType (t : SchemaType)
  | ofNum (q : Rat)
  | ofBool (b : Bool)
  | ofStr (s : String)
  | ofJsonList (l : List Json)
  | ofStrList (l : List String)
  deriving Repr

/-- A validation error (`types/validation.ts`); `line`/`column` are
optional and never set by `makeError`. -/
structure ValidationError where
  message : String
  path : String
  severity : String
  line : Option Nat
  column : Option Nat
  schemaKeyword : String
  schemaRule : Option RuleVal
  actualValue : Option Json
  deriving Repr

/-- The `makeError` with its default severity `'error'`. -/
def makeError (message path schemaKeyword : String)
    (schemaRule : Option RuleVal) (actualValue : Option Json) :
    ValidationError :=
  ⟨message, path, "error", none, none, schemaKeyword, schemaRule, actualValue⟩

/-- The result record `{valid, errors}`. -/
structure ValidationResult where
  valid : Bool
  errors : List ValidationError
  deriving Repr

/-- The `getJsonType`: the runtime JSON type name; an integral number is
`'integer'`. -/
def getJsonType : Json → String
  | .null => "null"
  | .arr _ => "array"
  | .num q => if q.den = 1 then "integer" else "number"
  | .bool _ => "boolean"
  | .str _ => "string"
  | .obj _ => "object"

/-- Truthiness of `schema.type`: absent and the empty string are
falsy; any other string and any array are truthy. -/
def schemaTypeTruthy : Option SchemaType → Bool
  | none => false
  | some (.single s) => s != ""
  | some (.multi _) => true

/-- The `schema.type !== 'null'`: only the single string `'null'` is
strictly equal to `'null'`. -/
def schemaTypeNeNull : Option SchemaType → Bool
  | some (.single s) => s != "null"
  | _ => true

/-- The `${schema.type}` in a template string: arrays join with `,`. -/
def schemaTypeShow : Option SchemaType → String
  | some (.single s) => s
  | some (.multi l) => String.intercalate "," l
  | none => "undefined"

/-- The list the code compares against:
`Array.isArray(schema.type) ? schema.type : [schema.type]`. -/
def allowedTypesOf : Option SchemaType → List String
  | some (.single s) => [s]
  | some (.multi l) => l
  | none => []

/-- Truncation toward zero, as JS `%` uses. -/
def ratTrunc (q : Rat) : Int :=
  if q < 0 then -((-q).floor) else q.floor

/-- The `value % m !== 0` for JS numbers: remainder after truncated
division; `m = 0` gives `NaN`, which is `!== 0`. -/
def jsRemNonZero (a m : Rat) : Bool :=
  if m = 0 then true
  else a - m * (ratTrunc (a / m) : Rat) != 0

/-- Schema lookup `props[key]` in an ordered property list. -/
def lookupSchema : List (String × JSONSchema) → String → Option JSONSchema
  | [], _ => none
  | (k, s) :: ps, key => if k = key then some s else lookupSchema ps key

/-- The early return for `value === undefined || value === null`: one
`type` error when a truthy non-`'null'` type is required, else
success, with every other constraint skipped. -/
def nullBranch (schema : JSONSchema) (path : String) : ValidationResult :=
  let errs :=
    if schemaTypeTruthy schema.stype && schemaTypeNeNull schema.stype then
      let shown := schemaTypeShow schema.stype
      [makeError (s!"Expected type \"{shown}\", got null") path "type"
        (schema.stype.map RuleVal.ofType) none]
    else []
  ⟨errs.isEmpty, errs⟩

/-- A schema reached through `items` is structurally smaller
(termination helper). -/
theorem sizeOfItemsLt {schema s : JSONSchema} (h : schema.items = some s) :
    sizeOf s < sizeOf schema := by
  cases schema with
  | mk f1 f2 f3 f4 f5 f6 f7 f8 f9 f10 f11 f12 f13 f14 f15 f16 f17 f18 f19 =>
    simp only [JSONSchema.items] at h
    subst h
    simp only [JSONSchema.mk.sizeOf_spec, Option.some.sizeOf_spec]
    omega

/-- A schema found by property lookup is smaller than the property
list (termination helper). -/
theorem sizeOfLookupSchemaLt {props : List (String × JSONSchema)}
    {k : String} {s : JSONSchema} (h : lookupSchema props k = some s) :
    sizeOf s < sizeOf props := by
  induction props with
  | nil => simp [lookupSchema] at h
  | cons p ps ih =>
    obtain ⟨pk, psch⟩ := p
    by_cases hk : pk = k
    · simp only [lookupSchema, if_pos hk, Option.some.injEq] at h
      subst h
      simp only [List.cons.sizeOf_spec, Prod.mk.sizeOf_spec]
      omega
    · simp only [lookupSchema, if_neg hk] at h
      have := ih h
      simp only [List.cons.sizeOf_spec]
      omega

/-- The property list of a schema is structurally smaller than the
schema (termination helper). -/
theorem sizeOfPropsLt {schema : JSONSchema}
    {props : List (String × JSONSchema)}
    (h : schema.properties = some props) : sizeOf props < sizeOf schema := by
  cases schema with
  | mk f1 f2 f3 f4 f5 f6 f7 f8 f9 f10 f11 f12 f13 f14 f15 f16 f17 f18 f19 =>
    simp only [JSONSchema.properties] at h
    subst h
    simp only [JSONSchema.mk.sizeOf_spec, Option.some.sizeOf_spec]
    omega

/-- The `validateSchema(value, schema, path)`, translated clause by clause
from the source: the null/undefined short-circuit, then type, enum,
string, number, array, and object constraint blocks, accumulating
errors in source order.  `rt pat s` stands for
`new RegExp(pat).test(s)` and `jstr` for `JSON.stringify` (used only
inside messages and the `uniqueItems` set test). -/
def validateSchema (rt : String → String → Bool) (jstr : Json → String)
    (value : Option Json) (schema : JSONSchema) (path : String) :
    ValidationResult :=
  match value with
  | none => nullBranch schema path
  | some .null => nullBranch schema path
  | some v =>
    let typeErrs : List ValidationError :=
      if schemaTypeTruthy schema.stype then
        let actualType := getJsonType v
        let allowedTypes := allowedTypesOf schema.stype
        let typeMatches := allowedTypes.contains actualType ||
          (actualType == "integer" && allowedTypes.contains "number")
        if typeMatches then []
        else
          let shown := String.intercalate " | " allowedTypes
          [makeError (s!"Expected type \"{shown}\", got \"{actualType}\"")
            path "type" (schema.stype.map RuleVal.ofType) (some v)]
      else []
    let enumErrs : List ValidationError :=
      match schema.enum with
      | some cands =>
        if cands.any (fun e => Json.beq e v) then []
        else
          let shown := String.intercalate ", " (cands.map jstr)
          [makeError (s!"Value must be one of: {shown}") path "enum"
            (some (RuleVal.ofJsonList cands)) (some v)]
      | none => []
    let strErrs : List ValidationError :=
      match v with
      | .str s =>
        (match schema.minLength with
         | some m =>
           if (s.length : Rat) < m then
             let ms := toString m
             [makeError (s!"String must be at least {ms} characters") path
               "minLength" (some (.ofNum m)) (some v)]
           else []
         | none => []) ++
        (match schema.maxLength with
         | some m =>
           if m < (s.length : Rat) then
             let ms := toString m
             [makeError (s!"String must be at most {ms} characters") path
               "maxLength" (some (.ofNum m)) (some v)]
           else []
         | none => []) ++
        (match schema.pattern with
         | some p =>
           if p != "" && !rt p s then
             [makeError (s!"String must match pattern \"{p}\"") path
               "pattern" (some (.ofStr p)) (some v)]
           else []
         | none => [])
      | _ => []
    let numErrs : List ValidationError :=
      match v with
      | .num q =>
        (match schema.minimum with
         | some m =>
           if q < m then
             let ms := toString m
             [makeError (s!"Value must be >= {ms}") path "minimum"
               (some (.ofNum m)) (some v)]
           else []
         | none => []) ++
        (match schema.maximum with
         | some m =>
           if m < q then
             let ms := toString m
             [makeError (s!"Value must be <= {ms}") path "maximum"
               (some (.ofNum m)) (some v)]
           else []
         | none => []) ++
        (match schema.exclusiveMinimum with
         | some m =>
           if q ≤ m then
             let ms := toString m
             [makeError (s!"Value must be > {ms}") path "exclusiveMinimum"
               (some (.ofNum m)) (some v)]
           else []
         | none => []) ++
        (match schema.exclusiveMaximum with
         | some m =>
           if m ≤ q then
             let ms := toString m
             [makeError (s!"Value must be < {ms}") path "exclusiveMaximum"
               (some (.ofNum m)) (some v)]
           else []
         | none => []) ++
        (match schema.multipleOf with
         | some m =>
           if jsRemNonZero q m then
             let ms := toString m
             [makeError (s!"Value must be a multiple of {ms}") path
               "multipleOf" (some (.ofNum m)) (some v)]
           else []
         | none => [])
      | _ => []
    let arrErrs : List ValidationError :=
      match v with
      | .arr xs =>
        (match schema.minItems with
         | some m =>
           if (xs.length : Rat) < m then
             let ms := toString m
             [makeError (s!"Array must have at least {ms} items") path
               "minItems" (some (.ofNum m)) (some v)]
           else []
         | none => []) ++
        (match schema.maxItems with
         | some m =>
           if m < (xs.length : Rat) then
             let ms := toString m
             [makeError (s!"Array must have at most {ms} items") path
               "maxItems" (some (.ofNum m)) (some v)]
           else []
         | none => []) ++
        (match schema.uniqueItems with
         | some true =>
           if ((xs.map jstr).dedup).length ≠ xs.length then
             [makeError "Array items must be unique" path "uniqueItems"
               (some (.ofBool true)) (some v)]
           else []
         | _ => []) ++
        (match hi : schema.items with
         | some isch =>
           xs.enum.flatMap (fun p =>
             let ip := toString p.1
             (validateSchema rt jstr (some p.2) isch (s!"{path}[{ip}]")).errors)
         | none => [])
      | _ => []
    let objErrs : List ValidationError :=
      match v with
      | .obj fs =>
        let keys := fs.map Prod.fst
        (match schema.required with
         | some reqs =>
           reqs.filterMap (fun req =>
             if keys.contains req then none
             else some (makeError (s!"Missing required property \"{req}\"")
               path "required" (some (.ofStrList reqs)) none))
         | none => []) ++
        (match schema.minProperties with
         | some m =>
           if (keys.length : Rat) < m then
             let ms := toString m
             [makeError (s!"Object must have at least {ms} properties") path
               "minProperties" (some (.ofNum m)) (some v)]
           else []
         | none => []) ++
        (match schema.maxProperties with
         | some m =>
           if m < (keys.length : Rat) then
             let ms := toString m
             [makeError (s!"Object must have at most {ms} properties") path
               "maxProperties" (some (.ofNum m)) (some v)]
           else []
         | none => []) ++
        (match hp : schema.properties with
         | some props =>
           keys.flatMap (fun k =>
             match hq : lookupSchema props k with
             | some psch =>
               (validateSchema rt jstr (lookupField fs k) psch
                 (s!"{path}.{k}")).errors
             | none =>
               if schema.additionalProperties == some false then
                 [makeError (s!"Unexpected property \"{k}\"")
                   (s!"{path}.{k}") "additionalProperties"
                   (some (.ofBool false)) (lookupField fs k)]
               else [])
         | none => [])
      | _ => []
    let errs := typeErrs ++ enumErrs ++ strErrs ++ numErrs ++ arrErrs ++ objErrs
    ⟨errs.isEmpty, errs⟩
termination_by sizeOf schema
decreasing_by
  · exact sizeOfItemsLt hi
  · exact Nat.lt_trans (sizeOfLookupSchemaLt hq) (sizeOfPropsLt hp)

/-! ## Parser and formatter (core/parser.ts, core/formatter.ts)

`JSON.parse` and `JSON.stringify` are JS builtins; they enter as
oracles `jp : String → Option Json` (`none` = the parse threw) and
`jstringify : Option JsSpace → Json → String` (the optional third
`space` argument).  The SyntaxError-message mining of
`extractParseError` likewise depends only on the text, entering as
`extractErr`. -/

/-- The `ParseError` from `types/editor.ts`. -/
structure ParseError where
  message : String
  line : Nat
  column : Nat
  offset : Nat
  deriving Repr

/-- The `ParseResult`: `value = none` is JS `undefined`, `error = none` is
JS `null`. -/
structure ParseResult where
  value : Option Json
  error : Option ParseError
  deriving Repr

/-- The `text.trim()`: strip JS whitespace from both ends. -/
def jsTrim (s : String) : String :=
  String.mk
    (((s.data.dropWhile jsWhitespaceChar).reverse.dropWhile
      jsWhitespaceChar).reverse)

/-- The `parseJson(text)`: empty/whitespace-only text parses to
`{value: undefined, error: null}`; otherwise the parse either succeeds
or yields the extracted error. -/
def parseJson (jp : String → Option Json) (extractErr : String → ParseError)
    (text : String) : ParseResult :=
  if jsTrim text = "" then ⟨none, none⟩
  else
    match jp text with
    | some v => ⟨some v, none⟩
    | none => ⟨none, some (extractErr text)⟩

/-- The `isValidJson(text)`: true exactly when `JSON.parse` does not
throw. -/
def isValidJson (jp : String → Option Json) (text : String) : Bool :=
  (jp text).isSome

/-- The `indentation` preference: a number of spaces or `'tab'`. -/
inductive IndentationType where
  | num (n : Nat)
  | tab
  deriving Repr

/-- The `space` argument handed to `JSON.stringify`. -/
inductive JsSpace where
  | ofNum (n : Nat)
  | ofStr (s : String)
  deriving Repr

/-- The `indent === 'tab' ? '\t' : indent`. -/
def spaceOfIndent : IndentationType → JsSpace
  | .tab => .ofStr "\t"
  | .num n => .ofNum n

/-- The `formatJson(text, indent)`: parse and re-serialize; the catch
branch returns the original text unchanged. -/
def formatJson (jp : String → Option Json)
    (jstringify : Option JsSpace → Json → String)
    (text : String) (indent : IndentationType) : String :=
  match jp text with
  | some parsed => jstringify (some (spaceOfIndent indent)) parsed
  | none => text

/-- The `minifyJson(text)`: parse and re-serialize with no whitespace; the
catch branch returns the original text unchanged. -/
def minifyJson (jp : String → Option Json)
    (jstringify : Option JsSpace → Json → String) (text : String) : String :=
  match jp text with
  | some parsed => jstringify none parsed
  | none => text

/-- The `order` argument of `sortJsonKeys`: `'asc'`, `'desc'`, or a
custom comparator. -/
inductive SortOrder where
  | asc
  | desc
  | custom (cmp : String → String → Int)

/-- The comparator `deepSortKeys` builds; `lc` is the JS
`a.localeCompare(b)` builtin. -/
def comparatorOf (lc : String → String → Int) : SortOrder → String → String → Int
  | .custom f => f
  | .desc => fun a b => lc b a
  | .asc => fun a b => lc a b

/-- A value found by field lookup is smaller than the field list
(termination helper). -/
theorem sizeOfLookupFieldLt {fs : List (String × Json)} {k : String}
    {v : Json} (h : lookupField fs k = some v) : sizeOf v < sizeOf fs := by
  induction fs with
  | nil => simp [lookupField] at h
  | cons p ps ih =>
    obtain ⟨pk, pv⟩ := p
    by_cases hk : pk = k
    · simp only [lookupField, if_pos hk, Option.some.injEq] at h
      subst h
      simp only [List.cons.sizeOf_spec, Prod.mk.sizeOf_spec]
      omega
    · simp only [lookupField, if_neg hk] at h
      have := ih h
      simp only [List.cons.sizeOf_spec]
      omega

/-- The `deepSortKeys(value, order)`: arrays map recursively in place;
objects are rebuilt with keys sorted by the comparator (JS
`Array.prototype.sort` is stable, hence `mergeSort`); primitives pass
through. -/
def deepSortKeys (lc : String → String → Int) (order : SortOrder) :
    Json → Json
  | .arr xs => .arr (xs.attach.map fun x => deepSortKeys lc order x.1)
  | .obj fs =>
    let cmp := comparatorOf lc order
    let keys := (fs.map Prod.fst).mergeSort (fun a b => cmp a b ≤ 0)
    .obj (keys.map fun k =>
      (k, match hq : lookupField fs k with
          | some v => deepSortKeys lc order v
          | none => .null))
  | v => v
termination_by v => sizeOf v
decreasing_by
  · have := List.sizeOf_lt_of_mem x.2
    simp only [Json.arr.sizeOf_spec]
    omega
  · have := sizeOfLookupFieldLt hq
    simp only [Json.obj.sizeOf_spec]
    omega

/-- The `sortJsonKeys(text, order, indent)`: parse, deep-sort, stringify;
the catch branch returns the original text unchanged. -/
def sortJsonKeys (jp : String → Option Json)
    (jstringify : Option JsSpace → Json → String)
    (lc : String → String → Int) (text : String) (order : SortOrder)
    (indent : IndentationType) : String :=
  match jp text with
  | some parsed =>
    jstringify (some (spaceOfIndent indent)) (deepSortKeys lc order parsed)
  | none => text

/-! ## Tree builder (components/TreeEditor/TreeEditor.tsx) -/

/-- A node key: an object key string or an array index. -/
inductive TreeKey where
  | ofStr (s : String)
  | ofNum (n : Nat)
  deriving Repr

/-- The `TreeNodeData`: the renderable node record.  The `type` field is
spelled `ntype` (`type` is reserved in Lean). -/
inductive TreeNodeData where
  | mk (id : String) (key : TreeKey) (value : Json) (ntype : String)
      (path : String) (depth : Nat) (expanded : Bool)
      (children : List TreeNodeData) (childCount : Nat)

/-- The `node.children`. -/
def TreeNodeData.children : TreeNodeData → List TreeNodeData
  | .mk _ _ _ _ _ _ _ ch _ => ch

/-- The `node.childCount`. -/
def TreeNodeData.childCount : TreeNodeData → Nat
  | .mk _ _ _ _ _ _ _ _ cc => cc

/-- The `node.expanded`. -/
def TreeNodeData.expanded : TreeNodeData → Bool
  | .mk _ _ _ _ _ _ e _ _ => e

/-- The `node.path`. -/
def TreeNodeData.path : TreeNodeData → String
  | .mk _ _ _ _ p _ _ _ _ => p

/-- The `getType`: the node type tag of a value. -/
def getType : Json → String
  | .null => "null"
  | .arr _ => "array"
  | .str _ => "string"
  | .num _ => "number"
  | .bool _ => "boolean"
  | .obj _ => "object"

/-- The `buildTree(value, path, key, depth, expandedPaths)`: `null` (the
model's `none`) only for `undefined`; every other value yields a node
whose `childCount` is the real key/element count, and whose `children`
are built recursively only when `path` is in the expansion set.
Children of objects walk the fields directly (JS `Object.keys` plus
`obj[k]`, identical for the unique keys real JS objects have); the
`.filter(Boolean)` step is `filterMap id`. -/
def buildTree (value : Option Json) (path : String) (key : TreeKey)
    (depth : Nat) (expandedPaths : List String) : Option TreeNodeData :=
  match value with
  | none => none
  | some v =>
    let ntype := getType v
    let expanded := expandedPaths.contains path
    match v with
    | .obj fs =>
      let children : List TreeNodeData :=
        if expanded then
          (fs.attach.map fun p =>
            buildTree (some p.1.2) (path ++ "." ++ p.1.1) (.ofStr p.1.1)
              (depth + 1) expandedPaths).filterMap id
        else []
      some (.mk path key v ntype path depth expanded children fs.length)
    | .arr xs =>
      let children : List TreeNodeData :=
        if expanded then
          (xs.enum.attach.map fun p =>
            let ix := toString p.1.1
            buildTree (some p.1.2) (path ++ "[" ++ ix ++ "]") (.ofNum p.1.1)
              (depth + 1) expandedPaths).filterMap id
        else []
      some (.mk path key v ntype path depth expanded children xs.length)
    | _ => some (.mk path key v ntype path depth expanded [] 0)
termination_by sizeOf value
decreasing_by
  · obtain ⟨⟨k, cv⟩, hmem⟩ := p
    have h1 := List.sizeOf_lt_of_mem hmem
    simp only [Prod.mk.sizeOf_spec] at h1
    simp only [Option.some.sizeOf_spec, Json.obj.sizeOf_spec]
    omega
  · obtain ⟨⟨ix, cv⟩, hmem⟩ := p
    have h1 : sizeOf cv < sizeOf xs :=
      List.sizeOf_lt_of_mem (List.snd_mem_of_mem_enum hmem)
    simp only [Option.some.sizeOf_spec, Json.arr.sizeOf_spec]
    omega

/-! ## Search engine (hooks/useSearch.ts) -/

/-- A text search match; `path` stays unset in text mode. -/
structure SearchMatch where
  line : Nat
  columnStart : Nat
  columnEnd : Nat
  matchText : String
  path : Option String
  deriving Repr

/-- A compiled JS regex with the `g` flag, seen through its `exec`
behavior: from scan position `i` on subject `s` it reports either no
further match or a match `(index, width)` with `i ≤ index` and
`index + width ≤ s.length`.  Both facts hold of every JS regex: a
match is found at or after `lastIndex` and lies inside the subject. -/
structure RegexEngine where
  exec : String → Nat → Option (Nat × Nat)
  execStart : ∀ s i idx len, exec s i = some (idx, len) → i ≤ idx
  execEnd : ∀ s i idx len, exec s i = some (idx, len) → idx + len ≤ s.length

/-- The `while ((match = regex.exec(line)) !== null)` loop of the
`matches` memo, for one line: record each match, continue from the
regex's updated `lastIndex = index + width`, bumping it by one first
whenever the match had zero width (`match.index === regex.lastIndex`),
the guard against infinite loops on zero-length matches. -/
def scanLine (re : RegexEngine) (lineIdx : Nat) (line : String) (i : Nat) :
    List SearchMatch :=
  match hm : re.exec line i with
  | none => []
  | some (idx, len) =>
    let lastIndex := idx + len
    let next := if idx = lastIndex then lastIndex + 1 else lastIndex
    ⟨lineIdx + 1, idx, idx + len, String.mk ((line.data.drop idx).take len),
      none⟩ :: scanLine re lineIdx line next
termination_by line.length + 1 - i
decreasing_by
  have h1 := re.execStart line i idx len hm
  have h2 := re.execEnd line i idx len hm
  split <;> omega

/-- The whole `matches` memo: empty query or text short-circuits to no
matches; a failed regex compilation (the catch branch, `reOpt = none`)
also yields no matches; otherwise each line of `text.split('\n')` is
scanned in order with 1-based line numbers. -/
def computeMatches (reOpt : Option RegexEngine) (query text : String) :
    List SearchMatch :=
  if query = "" || text = "" then []
  else
    match reOpt with
    | none => []
    | some re =>
      (text.splitOn "\n").enum.flatMap fun p => scanLine re p.1 p.2 0

namespace History

/-- Fold a sequence of `(now, value)` `set` calls into a state. -/
def applySets {α : Type} (mh : Nat) (gi : Int) (h : History α) :
    List (Int × α) → History α
  | [] => h
  | c :: cs => applySets mh gi (set mh gi h c.1 c.2) cs

/-- Each call time arrives at least `gi` ms after the previous update
time, so no call groups. -/
def nonGroupedTimes (gi : Int) : Int → List Int → Prop
  | _, [] => True
  | last, t :: ts => gi ≤ t - last ∧ nonGroupedTimes gi t ts

end History

/-! ## Concrete inputs used by the claim theorems and witnesses -/

/-- The schema `{type: 'number', minimum: 0}`. -/
def schemaNumberMin0 : JSONSchema :=
  .mk (some (.single "number")) none none none none (some 0) none none none
    none none none none none none none none none none

/-- A schema with no `type` and an `enum` that does not contain
`null`. -/
def schemaEnumNoNull : JSONSchema :=
  .mk none (some [Json.str "a", Json.num 1]) none none none none none none
    none none none none none none none none none none none

/-- The example document `{"a": [1, 2]}`. -/
def docA : Json := .obj [("a", .arr [.num 1, .num 2])]

/-!
# Theorems

One theorem per claim, preceded by the helper lemmas its proof
shares with no other claim theorem.
-/

/-! ### C1: get-after-set along a present path -/

/-- Walking from `undefined` yields `undefined`. -/
theorem getLoop_none_eq (segs : List String) : getLoop none segs = none := by
  cases segs <;> rfl

/-- A successful lookup means some binding matches the key. -/
theorem lookup_any {fs : List (String × Json)} {s : String} {u : Json}
    (h : lookupField fs s = some u) :
    fs.any (fun kv => kv.1 == s) = true := by
  induction fs with
  | nil => simp [lookupField] at h
  | cons p ps ih =>
    obtain ⟨k, v⟩ := p
    by_cases hk : k = s
    · simp [hk]
    · simp only [lookupField, if_neg hk] at h
      simp [ih h]

/-- Unfolding lemma for `lookupField` on a cons cell. -/
theorem lookupField_cons (k : String) (v : Json) (fs : List (String × Json))
    (s : String) :
    lookupField ((k, v) :: fs) s = if k = s then some v else lookupField fs s :=
  rfl

/-- Looking up a key in the mapped (replace-in-place) field list
yields the new value whenever the key was bound before. -/
theorem lookup_map_set {s : String} {w : Json} :
    ∀ {fs : List (String × Json)} {u : Json}, lookupField fs s = some u →
    lookupField (fs.map (fun kv => if kv.1 = s then (kv.1, w) else kv)) s =
      some w := by
  intro fs
  induction fs with
  | nil => intro u h; simp [lookupField] at h
  | cons p ps ih =>
    intro u h
    obtain ⟨k, v⟩ := p
    rw [List.map_cons]
    by_cases hk : k = s
    · have hhead :
          (if (k, v).1 = s then ((k, v).1, w) else (k, v)) = (k, w) := by
        simp [hk]
      rw [hhead, lookupField_cons, if_pos hk]
    · have hhead :
          (if (k, v).1 = s then ((k, v).1, w) else (k, v)) = (k, v) := by
        simp [hk]
      rw [hhead, lookupField_cons, if_neg hk]
      rw [lookupField_cons, if_neg hk] at h
      exact ih h

/-- After the spread update, the updated key is bound to the new
value (provided it was bound before, so the replace branch runs). -/
theorem lookupField_setField {fs : List (String × Json)} {s : String}
    {u w : Json} (h : lookupField fs s = some u) :
    lookupField (setField fs s w) s = some w := by
  unfold setField
  rw [if_pos (lookup_any h)]
  exact lookup_map_set h

/-- Round trip along the parsed segments: if the walk succeeds on
`v`, then `setBySegments` succeeds and the walk on the result returns
the written value. -/
theorem setLoop_getLoop (segs : List String) :
    ∀ (v : Json) (x : Json), (getLoop (some v) segs).isSome = true →
    ∃ w, setLoop (some v) segs x = some w ∧ getLoop (some w) segs = some x := by
  induction segs with
  | nil =>
    intro v x _
    exact ⟨x, rfl, rfl⟩
  | cons seg rest ih =>
    intro v x hp
    cases v with
    | null => simp [getLoop] at hp
    | bool b => simp [getLoop] at hp
    | num q => simp [getLoop] at hp
    | str s => simp [getLoop] at hp
    | arr xs =>
      cases hpi : jsParseInt seg with
      | none => simp [getLoop, hpi] at hp
      | some i =>
        simp only [getLoop, hpi] at hp
        by_cases hge : 0 ≤ i
        · rw [if_pos hge] at hp
          cases hx : xs[i.toNat]? with
          | none => rw [hx, getLoop_none_eq] at hp; simp at hp
          | some u =>
            rw [hx] at hp
            obtain ⟨w', hset, hget⟩ := ih u x hp
            have hlt : i.toNat < xs.length := (List.getElem?_eq_some.mp hx).1
            refine ⟨.arr (xs.set i.toNat w'), ?_, ?_⟩
            · simp only [setLoop, hpi]
              rw [if_pos hge, if_pos hlt, hx, hset]
              rfl
            · simp only [getLoop, hpi]
              rw [if_pos hge, List.getElem?_set_eq hlt]
              exact hget
        · rw [if_neg hge, getLoop_none_eq] at hp
          simp at hp
    | obj fs =>
      simp only [getLoop] at hp
      cases hl : lookupField fs seg with
      | none => rw [hl, getLoop_none_eq] at hp; simp at hp
      | some u =>
        rw [hl] at hp
        obtain ⟨w', hset, hget⟩ := ih u x hp
        refine ⟨.obj (setField fs seg w'), ?_, ?_⟩
        · simp only [setLoop]
          rw [hl, hset]
          rfl
        · simp only [getLoop]
          rw [lookupField_setField hl]
          exact hget

/-- C1: for every JSON value `v`, every path `p` present in `v`
(`getByPath` does not return `undefined` on it), and every value `x`,
`setByPath(v, p, x)` produces a JSON value `w` with
`getByPath(w, p) = x`. -/
theorem getByPath_setByPath_roundtrip (v : Json) (p : String) (x : Json)
    (h : (getByPath v p).isSome = true) :
    ∃ w, setByPath v p x = some w ∧ getByPath w p = some x := by
  unfold getByPath setByPath at *
  by_cases h1 : p = "$"
  · refine ⟨x, ?_, ?_⟩ <;> simp [h1]
  · by_cases h2 : p = ""
    · refine ⟨x, ?_, ?_⟩ <;> simp [h2]
    · simp only [h1, h2, decide_False, Bool.or_self, Bool.false_eq_true,
        if_false] at h ⊢
      exact setLoop_getLoop (parsePath p) v x h

/-- C1 witness: the path `$.a[1]` is present in `{"a": [1, 2]}`, and
writing `"hi"` there then reading it back yields `"hi"`. -/
theorem getByPath_setByPath_roundtrip_witness :
    ∃ w, setByPath docA "$.a[1]" (Json.str "hi") = some w ∧
      getByPath w "$.a[1]" = some (Json.str "hi") :=
  getByPath_setByPath_roundtrip docA "$.a[1]" (Json.str "hi") (by
    simp +decide [getByPath, parsePath, stripDollar, replBracketNum,
      replBracketQuoted, splitDot, List.dropWhile, List.takeWhile, getLoop,
      jsParseInt, digitsVal, lookupField, docA, jsWhitespaceChar])

/-! ### C3: validateSchema(-5, {type: number, minimum: 0}) -/

/-- C3: validating `-5` against `{type: 'number', minimum: 0}` yields
exactly one error, carrying `schemaKeyword = 'minimum'` and
`actualValue = -5`, and marks the result invalid; in particular the
integral `-5` raises no `type` error against `'number'`.  The regex
and stringify oracles are irrelevant to this schema, so the result
holds for all of them. -/
theorem validateSchema_minimum_example (rt : String → String → Bool)
    (jstr : Json → String) :
    (validateSchema rt jstr (some (Json.num (-5))) schemaNumberMin0
        "$").errors.map (fun e => (e.schemaKeyword, e.actualValue)) =
      [("minimum", some (Json.num (-5)))] ∧
    (validateSchema rt jstr (some (Json.num (-5))) schemaNumberMin0
        "$").valid = false := by
  constructor <;>
    simp +decide [validateSchema, schemaNumberMin0, JSONSchema.stype,
      JSONSchema.enum, JSONSchema.minLength, JSONSchema.maxLength,
      JSONSchema.pattern, JSONSchema.minimum, JSONSchema.maximum,
      JSONSchema.exclusiveMinimum, JSONSchema.exclusiveMaximum,
      JSONSchema.multipleOf, JSONSchema.minItems, JSONSchema.maxItems,
      JSONSchema.uniqueItems, JSONSchema.items, JSONSchema.required,
      JSONSchema.minProperties, JSONSchema.maxProperties,
      JSONSchema.properties, JSONSchema.additionalProperties,
      schemaTypeTruthy, allowedTypesOf, getJsonType, makeError]

/-! ### C10: null against a schema without a type short-circuits -/

/-- C10: when the schema has no `type` field, validating `null`
returns `{valid: true, errors: []}` no matter what other constraints
(an `enum` without `null` included) the schema carries: the
null/undefined short-circuit runs before any non-type check. -/
theorem validateSchema_null_no_type (rt : String → String → Bool)
    (jstr : Json → String) (schema : JSONSchema) (path : String)
    (h : schema.stype = none) :
    validateSchema rt jstr (some Json.null) schema path =
      ⟨true, []⟩ := by
  simp [validateSchema, nullBranch, h, schemaTypeTruthy]

/-- C10 witness: `null` against `{enum: ["a", 1]}` (no `type`) is
valid with no errors, although the enum does not contain `null`. -/
theorem validateSchema_null_no_type_witness :
    validateSchema (fun _ _ => true) (fun _ => "") (some Json.null)
      schemaEnumNoNull "$" = ⟨true, []⟩ :=
  validateSchema_null_no_type (fun _ _ => true) (fun _ => "")
    schemaEnumNoNull "$" rfl

/-! ### C5: formatter functions are the identity on unparseable text -/

/-- C5: when `JSON.parse` rejects the text (`jp text = none`),
`formatJson`, `minifyJson` and `sortJsonKeys` all return the text
unchanged, for every indent, order, and stringify/localeCompare
oracle; being total Lean functions, they throw nothing. -/
theorem formatter_identity_on_invalid (jp : String → Option Json)
    (jstringify : Option JsSpace → Json → String)
    (lc : String → String → Int) (text : String)
    (indent : IndentationType) (order : SortOrder)
    (h : jp text = none) :
    formatJson jp jstringify text indent = text ∧
    minifyJson jp jstringify text = text ∧
    sortJsonKeys jp jstringify lc text order indent = text := by
  refine ⟨?_, ?_, ?_⟩ <;> simp [formatJson, minifyJson, sortJsonKeys, h]

/-- C5 witness: with a parse oracle rejecting everything, the three
formatters leave the text `{oops` unchanged. -/
theorem formatter_identity_on_invalid_witness :
    formatJson (fun _ => none) (fun _ _ => "X") "\x7boops" (.num 2) =
        "\x7boops" ∧
    minifyJson (fun _ => none) (fun _ _ => "X") "\x7boops" = "\x7boops" ∧
    sortJsonKeys (fun _ => none) (fun _ _ => "X") (fun _ _ => 0) "\x7boops"
        .asc (.num 2) = "\x7boops" :=
  formatter_identity_on_invalid (fun _ => none) (fun _ _ => "X")
    (fun _ _ => 0) "\x7boops" (.num 2) .asc rfl

/-! ### C6: whitespace-only text parses cleanly; empty text is not
valid JSON -/

/-- Dropping everything drops to nil: a list all of whose elements
satisfy the predicate has an empty `dropWhile` residue. -/
theorem dropWhileAllNil {α : Type} {p : α → Bool} :
    ∀ {l : List α}, (∀ c ∈ l, p c = true) → l.dropWhile p = [] := by
  intro l
  induction l with
  | nil => intro _; rfl
  | cons c rest ih =>
    intro h
    rw [List.dropWhile_cons, if_pos (h c (List.mem_cons_self c rest))]
    exact ih (fun x hx => h x (List.mem_cons_of_mem c hx))

/-- Trimming an all-whitespace string yields the empty string. -/
theorem jsTrimWhitespaceEq {text : String}
    (h : ∀ c ∈ text.data, jsWhitespaceChar c = true) : jsTrim text = "" := by
  unfold jsTrim
  rw [dropWhileAllNil h]
  rfl

/-- C6: a text whose characters are all JS whitespace — the empty
string included — parses to `{value: undefined, error: null}`, while
`isValidJson` of the empty string is `false` (because `JSON.parse`
throws on it: `jp "" = none`, the RFC 8259 behavior of the builtin). -/
theorem parseJson_whitespace_isValidJson_empty
    (jp : String → Option Json) (extractErr : String → ParseError)
    (text : String) (hws : ∀ c ∈ text.data, jsWhitespaceChar c = true)
    (hjp : jp "" = none) :
    parseJson jp extractErr text = ⟨none, none⟩ ∧
    isValidJson jp "" = false := by
  constructor
  · unfold parseJson
    rw [if_pos (jsTrimWhitespaceEq hws)]
  · simp [isValidJson, hjp]

/-- C6 witness: two spaces and a tab parse to no value and no error;
the empty string is not valid JSON for a parse oracle that rejects
it. -/
theorem parseJson_whitespace_isValidJson_empty_witness :
    parseJson (fun _ => none) (fun _ => ⟨"", 1, 1, 0⟩) "  \t" =
        ⟨none, none⟩ ∧
    isValidJson (fun _ => none) "" = false :=
  parseJson_whitespace_isValidJson_empty (fun _ => none)
    (fun _ => ⟨"", 1, 1, 0⟩) "  \t" (by decide) rfl

/-! ### C7: buildTree counts children eagerly, builds them lazily -/

/-- C7: for any object or array value and any expansion set, the
built node's `childCount` is the true number of fields/elements
whether or not the node is expanded, and its `children` list is empty
whenever its path is not in the expansion set. -/
theorem buildTree_childCount_lazy (fs : List (String × Json))
    (xs : List Json) (path : String) (key : TreeKey) (depth : Nat)
    (exp : List String) :
    ((buildTree (some (.obj fs)) path key depth exp).map
        TreeNodeData.childCount = some fs.length ∧
     (buildTree (some (.arr xs)) path key depth exp).map
        TreeNodeData.childCount = some xs.length) ∧
    (exp.contains path = false →
      (buildTree (some (.obj fs)) path key depth exp).map
          TreeNodeData.children = some [] ∧
      (buildTree (some (.arr xs)) path key depth exp).map
          TreeNodeData.children = some []) := by
  refine ⟨⟨?_, ?_⟩, fun h => ?_⟩
  · simp [buildTree, TreeNodeData.childCount]
  · simp [buildTree, TreeNodeData.childCount]
  · have h' : path ∉ exp := by simpa using h
    exact ⟨by simp [buildTree, TreeNodeData.children, h'],
      by simp [buildTree, TreeNodeData.children, h']⟩

/-- C7 witness: at the collapsed root of `{"a": null}` and of
`[null]`, `childCount` is 1 and `children` is empty. -/
theorem buildTree_childCount_lazy_witness :
    ((buildTree (some (.obj [("a", Json.null)])) "$" (.ofStr "root") 0
        []).map TreeNodeData.childCount = some 1 ∧
     (buildTree (some (.arr [Json.null])) "$" (.ofStr "root") 0 []).map
        TreeNodeData.childCount = some 1) ∧
    ((buildTree (some (.obj [("a", Json.null)])) "$" (.ofStr "root") 0
        []).map TreeNodeData.children = some [] ∧
     (buildTree (some (.arr [Json.null])) "$" (.ofStr "root") 0 []).map
        TreeNodeData.children = some []) := by
  have h := buildTree_childCount_lazy [("a", Json.null)] [Json.null] "$"
    (.ofStr "root") 0 []
  exact ⟨h.1, h.2 rfl⟩

/-! ### History helpers shared by C2, C4 and C9 -/

/-- One `set` call keeps `position < entries.length ≤ maxHistory`,
whatever the timing, provided `maxHistory ≥ 1`. -/
theorem set_preserves_inv {α : Type} {mh : Nat} {gi : Int} (hmh : 1 ≤ mh)
    {h : History α} (h1 : h.position < h.entries.length)
    (h2 : h.entries.length ≤ mh) (now : Int) (v : α) :
    (History.set mh gi h now v).position <
        (History.set mh gi h now v).entries.length ∧
    (History.set mh gi h now v).entries.length ≤ mh := by
  unfold History.set
  dsimp only
  split <;> split <;>
    simp_all [List.length_take, List.length_append, List.length_drop] <;>
    omega

/-- Every state reachable with `maxHistory ≥ 1` satisfies
`position < entries.length ≤ maxHistory`. -/
theorem reachable_inv {α : Type} {mh : Nat} {gi : Int} (hmh : 1 ≤ mh)
    {h : History α} (hr : History.Reachable mh gi h) :
    h.position < h.entries.length ∧ h.entries.length ≤ mh := by
  induction hr with
  | init v => simpa [History.init] using hmh
  | set now v _ ih => exact set_preserves_inv hmh ih.1 ih.2 now v
  | undo _ ih =>
    unfold History.undo
    split <;> simp_all <;> omega
  | redo _ ih =>
    unfold History.redo
    split <;> simp_all <;> omega
  | reset v _ _ => simpa [History.reset] using hmh

/-- A non-grouped `set` from the top of the stack with room left is a
plain append that advances the position. -/
theorem set_nongrouped_top {α : Type} (mh : Nat) (gi : Int)
    {h : History α} (now : Int) (v : α)
    (htop : h.position + 1 = h.entries.length)
    (hng : gi ≤ now - h.lastUpdateTime)
    (hroom : h.entries.length + 1 ≤ mh) :
    History.set mh gi h now v = ⟨h.entries ++ [v], h.position + 1, now⟩ := by
  unfold History.set
  dsimp only
  have hc1 : (decide (now - h.lastUpdateTime < gi) &&
      decide (0 < h.position)) = false := by
    have hx : ¬ (now - h.lastUpdateTime < gi) := by omega
    simp [hx]
  rw [hc1]
  simp only [Bool.false_eq_true, if_false]
  have htake : h.entries.take (h.position + 1) = h.entries := by
    apply List.take_of_length_le
    omega
  rw [htake]
  have hlen : ¬ (mh < (h.entries ++ [v]).length) := by
    simp [List.length_append]
    omega
  rw [if_neg hlen]
  have hpos : ((0 : Int) ⊔ (↑h.position + 1)).toNat = h.position + 1 := by
    omega
  simp [hpos]

/-- A grouped `set` (inside the window, position positive) on an
invariant-satisfying state replaces the slice beyond the position:
the entries become `take position ++ [value]` and the position
stays. -/
theorem set_grouped_eq {α : Type} (mh : Nat) (gi : Int) {h : History α}
    (now : Int) (v : α) (hg : now - h.lastUpdateTime < gi)
    (hpos : 0 < h.position) (hlen : h.position < h.entries.length)
    (hroom : h.entries.length ≤ mh) :
    History.set mh gi h now v =
      ⟨h.entries.take h.position ++ [v], h.position, now⟩ := by
  unfold History.set
  dsimp only
  have hc1 : (decide (now - h.lastUpdateTime < gi) &&
      decide (0 < h.position)) = true := by
    simp [hg, hpos]
  rw [hc1]
  simp only [if_true]
  have hlen2 : ¬ (mh < (h.entries.take h.position ++ [v]).length) := by
    simp [List.length_append, List.length_take]
    omega
  rw [if_neg hlen2]
  have hp : ((0 : Int) ⊔ (↑h.position : Int)).toNat = h.position := by omega
  simp [hp]

/-- Folding non-grouped `set` calls from the top of the stack with
room for all of them appends one entry per call and ends at the
top. -/
theorem applySets_growth {α : Type} (mh : Nat) (gi : Int) :
    ∀ (calls : List (Int × α)) (h : History α),
    h.position + 1 = h.entries.length →
    History.nonGroupedTimes gi h.lastUpdateTime (calls.map Prod.fst) →
    h.entries.length + calls.length ≤ mh →
    (History.applySets mh gi h calls).entries.length =
        h.entries.length + calls.length ∧
    (History.applySets mh gi h calls).position + 1 =
        (History.applySets mh gi h calls).entries.length := by
  intro calls
  induction calls with
  | nil =>
    intro h htop _ _
    exact ⟨by simp [History.applySets], by simpa [History.applySets] using htop⟩
  | cons c cs ih =>
    intro h htop hng hroom
    obtain ⟨now, v⟩ := c
    obtain ⟨hng1, hng2⟩ := hng
    have hroom1 : h.entries.length + 1 ≤ mh := by
      simp only [List.length_cons] at hroom
      omega
    have hstep := set_nongrouped_top mh gi now v htop hng1 hroom1
    have hrec := ih (History.set mh gi h now v)
      (by rw [hstep]; simp; omega)
      (by rw [hstep]; exact hng2)
      (by rw [hstep]; simp at hroom ⊢; omega)
    have happ : History.applySets mh gi h ((now, v) :: cs) =
        History.applySets mh gi (History.set mh gi h now v) cs := rfl
    rw [happ]
    refine ⟨?_, hrec.2⟩
    rw [hrec.1, hstep]
    simp
    omega

/-! ### C4: the position invariant -/

/-- C4 counterexample to the claim as stated: with `maxHistory = 0`
(a legal option value) a single `set` call reaches a state whose
entries list is empty, so `position < entries.length` fails. -/
theorem history_invariant_mh0_counterexample :
    History.Reachable 0 300
        (History.set 0 300 (History.init (0 : Int)) 400 1) ∧
    ¬ ((History.set 0 300 (History.init (0 : Int)) 400 1).position <
        (History.set 0 300 (History.init (0 : Int)) 400 1).entries.length) :=
  ⟨History.Reachable.set 400 1 (History.Reachable.init 0), by decide⟩

/-- C4 (amended with `maxHistory ≥ 1`): every reachable history state
satisfies `0 ≤ position < entries.length`, so the invariant is
preserved by `set` (grouped or not, with trimming), `undo`, `redo`
and `reset`. -/
theorem history_position_invariant {α : Type} (mh : Nat) (gi : Int)
    (hmh : 1 ≤ mh) (h : History α) (hr : History.Reachable mh gi h) :
    0 ≤ h.position ∧ h.position < h.entries.length :=
  ⟨Nat.zero_le _, (reachable_inv hmh hr).1⟩

/-- C4 witness: the invariant at the concrete reachable state reached
by one `set` with the hook's defaults. -/
theorem history_position_invariant_witness :
    0 ≤ (History.set 100 300 (History.init "a") 300 "b").position ∧
    (History.set 100 300 (History.init "a") 300 "b").position <
      (History.set 100 300 (History.init "a") 300 "b").entries.length :=
  history_position_invariant 100 300 (by decide) _
    (History.Reachable.set 300 "b" (History.Reachable.init "a"))

/-! ### C2: growth under non-grouped writes -/

/-- C2 counterexample to the claim as stated: at `n = maxHistory`
(allowed by the claim's `n ≤ maxHistory`) the append trims the stack,
so `historyLength` is `n`, not `n + 1`: two non-grouped `set` calls
with `maxHistory = 2` leave 2 entries. -/
theorem history_growth_counterexample :
    History.nonGroupedTimes 300 0
        (([((300 : Int), (1 : Nat)), (600, 2)]).map Prod.fst) ∧
    ([((300 : Int), (1 : Nat)), (600, 2)]).length ≤ 2 ∧
    (History.applySets 2 300 (History.init (0 : Nat))
        [((300 : Int), 1), (600, 2)]).historyLength ≠
      ([((300 : Int), (1 : Nat)), (600, 2)]).length + 1 := by
  refine ⟨?_, by decide, by decide⟩
  simp [History.nonGroupedTimes]

/-- C2 (amended to `1 ≤ n ≤ maxHistory - 1`): after `n` non-grouped
`set` calls on a fresh history, `historyLength = n + 1` (counting the
initial entry), `canUndo` is true and `canRedo` is false; after one
`undo`, `canRedo` is true.  At `n = maxHistory` trimming makes the
length `n`, and at `n = 0` `canUndo` is false, so the bounds are
tight. -/
theorem history_nonGrouped_growth {α : Type} (mh : Nat) (gi : Int)
    (v0 : α) (calls : List (Int × α))
    (hng : History.nonGroupedTimes gi 0 (calls.map Prod.fst))
    (hn1 : 1 ≤ calls.length) (hn2 : calls.length < mh) :
    (History.applySets mh gi (History.init v0) calls).historyLength =
        calls.length + 1 ∧
    (History.applySets mh gi (History.init v0) calls).canUndo = true ∧
    (History.applySets mh gi (History.init v0) calls).canRedo = false ∧
    ((History.applySets mh gi (History.init v0) calls).undo).canRedo
        = true := by
  have hgrow := applySets_growth mh gi calls (History.init v0)
    (by simp [History.init]) (by simpa [History.init] using hng)
    (by simp [History.init]; omega)
  obtain ⟨hlen, htop⟩ := hgrow
  have hlen' : (History.applySets mh gi (History.init v0) calls).entries.length
      = calls.length + 1 := by
    rw [hlen]
    simp [History.init]
    omega
  have hpos : (History.applySets mh gi (History.init v0) calls).position
      = calls.length := by omega
  refine ⟨by simpa [History.historyLength] using hlen', ?_, ?_, ?_⟩
  · simp only [History.canUndo, decide_eq_true_eq, hpos]
    omega
  · simp only [History.canRedo, decide_eq_false_iff_not, not_lt, hpos, hlen']
    push_cast
    omega
  · have hpx : 0 < (History.applySets mh gi (History.init v0) calls).position := by
      omega
    unfold History.undo
    rw [if_pos hpx]
    simp only [History.canRedo, decide_eq_true_eq, hpos, hlen']
    push_cast
    omega

/-- C2 witness: two non-grouped writes with the defaults
(`maxHistory = 100`, interval 300 ms) give three entries, undo
available, redo not, and redo available after one undo. -/
theorem history_nonGrouped_growth_witness :
    (History.applySets 100 300 (History.init "a")
        [((300 : Int), "b"), (600, "c")]).historyLength = 2 + 1 ∧
    (History.applySets 100 300 (History.init "a")
        [((300 : Int), "b"), (600, "c")]).canUndo = true ∧
    (History.applySets 100 300 (History.init "a")
        [((300 : Int), "b"), (600, "c")]).canRedo = false ∧
    ((History.applySets 100 300 (History.init "a")
        [((300 : Int), "b"), (600, "c")]).undo).canRedo = true :=
  history_nonGrouped_growth 100 300 "a" [((300 : Int), "b"), (600, "c")]
    (by simp [History.nonGroupedTimes])
    (by decide) (by decide)

/-! ### C9: grouped writes also discard the redo tail -/

/-- C9: on any reachable state (with `maxHistory ≥ 1`), a grouped
`set` call (inside the grouping window, with positive position) also
discards the entries beyond the current position: the resulting
entries are exactly `position + 1` many and end with the new value. -/
theorem history_grouped_set_discards_redo {α : Type} (mh : Nat)
    (gi : Int) (hmh : 1 ≤ mh) (h : History α)
    (hr : History.Reachable mh gi h) (now : Int) (v : α)
    (hg : now - h.lastUpdateTime < gi) (hpos : 0 < h.position) :
    (History.set mh gi h now v).entries.length = h.position + 1 ∧
    (History.set mh gi h now v).entries.getLast? = some v := by
  obtain ⟨hlen, hle⟩ := reachable_inv hmh hr
  rw [set_grouped_eq mh gi now v hg hpos hlen hle]
  constructor
  · simp [List.length_append, List.length_take]
    omega
  · simp

/-- C9 witness: after one non-grouped write, a quick second write
(1 ms later) groups; the history then has `position + 1 = 2` entries
ending in the new value, the old redo tail gone. -/
theorem history_grouped_set_discards_redo_witness :
    (History.set 100 300 (History.set 100 300 (History.init "a") 300 "b")
        301 "c").entries.length =
      (History.set 100 300 (History.init "a") 300 "b").position + 1 ∧
    (History.set 100 300 (History.set 100 300 (History.init "a") 300 "b")
        301 "c").entries.getLast? = some "c" :=
  history_grouped_set_discards_redo 100 300 (by decide)
    (History.set 100 300 (History.init "a") 300 "b")
    (History.Reachable.set 300 "b" (History.Reachable.init "a"))
    301 "c" (by decide) (by decide)


/-! ### C8: text search terminates with non-overlapping matches -/

/-- Facts about one line's scan loop: it yields at most
`line.length + 1 - i` matches (so the loop terminates, the zero-width
guard advancing the index past every empty match), every match starts
at or after the scan start and lies inside the line with the right
line number, and consecutive matches never overlap. -/
theorem scanLine_facts (re : RegexEngine) (li : Nat) (line : String) :
    ∀ i : Nat,
    ((scanLine re li line i).length ≤ line.length + 1 - i) ∧
    (∀ m ∈ scanLine re li line i,
      i ≤ m.columnStart ∧ m.columnStart ≤ m.columnEnd ∧
      m.columnEnd ≤ line.length ∧ m.line = li + 1) ∧
    (scanLine re li line i).Pairwise
      (fun a b => a.columnEnd ≤ b.columnStart)
  | i => by
    rw [scanLine.eq_def]
    cases hm : re.exec line i with
    | none => simp
    | some p =>
      obtain ⟨idx, len⟩ := p
      have h1 := re.execStart line i idx len hm
      have h2 := re.execEnd line i idx len hm
      dsimp only
      by_cases hz : idx = idx + len
      · rw [if_pos hz]
        obtain ⟨ihlen, ihmem, ihpw⟩ := scanLine_facts re li line (idx + len + 1)
        refine ⟨?_, ?_, ?_⟩
        · simp only [List.length_cons]
          omega
        · intro m hmem2
          rcases List.mem_cons.mp hmem2 with hhead | htail
          · subst hhead
            exact ⟨h1, Nat.le_add_right idx len, h2, rfl⟩
          · have hfacts := ihmem m htail
            exact ⟨by omega, hfacts.2.1, hfacts.2.2.1, hfacts.2.2.2⟩
        · refine List.Pairwise.cons ?_ ihpw
          intro b hb
          have hfacts := ihmem b hb
          dsimp only
          omega
      · rw [if_neg hz]
        obtain ⟨ihlen, ihmem, ihpw⟩ := scanLine_facts re li line (idx + len)
        refine ⟨?_, ?_, ?_⟩
        · simp only [List.length_cons]
          omega
        · intro m hmem2
          rcases List.mem_cons.mp hmem2 with hhead | htail
          · subst hhead
            exact ⟨h1, Nat.le_add_right idx len, h2, rfl⟩
          · have hfacts := ihmem m htail
            exact ⟨by omega, hfacts.2.1, hfacts.2.2.1, hfacts.2.2.2⟩
        · refine List.Pairwise.cons ?_ ihpw
          intro b hb
          have hfacts := ihmem b hb
          dsimp only
          omega
termination_by i => line.length + 1 - i
decreasing_by
  · omega
  · omega

/-- Lines are scanned in order, so matches from different lines are
ordered by their strictly increasing line numbers, and matches within
a line do not overlap. -/
theorem flatScan_pairwise (re : RegexEngine) :
    ∀ (ls : List String) (k : Nat),
    ((ls.enumFrom k).flatMap fun p => scanLine re p.1 p.2 0).Pairwise
      (fun a b => a.line < b.line ∨
        (a.line = b.line ∧ a.columnEnd ≤ b.columnStart)) := by
  intro ls
  induction ls with
  | nil => intro k; simp
  | cons line ls ih =>
    intro k
    simp only [List.enumFrom, List.flatMap_cons]
    rw [List.pairwise_append]
    obtain ⟨hlen, hmem, hpw⟩ := scanLine_facts re k line 0
    refine ⟨?_, ih (k + 1), ?_⟩
    · refine hpw.imp_of_mem ?_
      intro a b ha hb hab
      exact Or.inr ⟨((hmem a ha).2.2.2).trans ((hmem b hb).2.2.2).symm, hab⟩
    · intro a ha b hb
      have hal : a.line = k + 1 := (hmem a ha).2.2.2
      obtain ⟨p, hp, hbp⟩ := List.mem_flatMap.mp hb
      have hbl : b.line = p.1 + 1 :=
        ((scanLine_facts re p.1 p.2 0).2.1 b hbp).2.2.2
      have hk : k + 1 ≤ p.1 := List.le_fst_of_mem_enumFrom hp
      exact Or.inl (by omega)

/-- C8: for every compiled query (any regex engine, or a failed
compilation) and every text, the match list is a well-defined finite
list whose entries are pairwise non-overlapping (strictly increasing
line numbers, and within a line each match ends at or before the next
begins); moreover each line contributes at most `line.length + 1`
matches, the bound the zero-width-match guard enforces. -/
theorem searchMatches_nonoverlapping (reOpt : Option RegexEngine)
    (query text : String) :
    ((computeMatches reOpt query text).Pairwise
      (fun a b => a.line < b.line ∨
        (a.line = b.line ∧ a.columnEnd ≤ b.columnStart))) ∧
    (∀ (re : RegexEngine) (li : Nat) (line : String) (i : Nat),
      (scanLine re li line i).length ≤ line.length + 1 - i) := by
  constructor
  · unfold computeMatches
    split
    · exact List.Pairwise.nil
    · cases reOpt with
      | none => exact List.Pairwise.nil
      | some re => exact flatScan_pairwise re (text.splitOn "\n") 0
  · intro re li line i
    exact (scanLine_facts re li line i).1

end MJR
